import Mathlib

/-!
Verification of the `NumMethods` class from `nanalysis/num_methods.py`.

The numeric type of the Python code (IEEE floats produced by numpy) is
idealised as an arbitrary linear ordered field `α`; all definitions are
computable, so every theorem can be evaluated at `α = ℚ`.  The value
`np.sqrt(3)` used by the Gaussian quadrature routines is not rational, so it
is passed to those definitions as an explicit parameter `sqrt3 : α`; every
theorem quantifies over it.

Python integers (`n`, `n_0`, `level`) are modelled as `ℕ` or `ℤ` following
their use in the source; the depth values stored in the numpy array `l` are
the integers 1, 2, ... and are modelled as `ℕ`.

Function-evaluation counting: each call site `self.func(...)` of the source
is translated through `fcall`, which returns the value together with an
incremented evaluation counter.
-/

namespace NumAnalysis

variable {α : Type} [LinearOrderedField α]

/-- One call of the target function `self.func`, threading an evaluation
counter: returns the value and the counter incremented by one. -/
def fcall (f : α → α) (x : α) (k : ℕ) : α × ℕ :=
  (f x, k + 1)

/-- `for_diff` (num_methods.py line 29): `(f(x+h)-f(x))/h`. -/
def for_diff (f : α → α) (x h : α) : α :=
  (f (x + h) - f x) / h

/-- `end_3diff` (line 42). -/
def end_3diff (f : α → α) (x h : α) : α :=
  (-3 * f x + 4 * f (x + h) - f (x + 2 * h)) / (2 * h)

/-- `mid_3diff` (line 55). -/
def mid_3diff (f : α → α) (x h : α) : α :=
  (f (x + h) - f (x - h)) / (2 * h)

/-- `end_5diff` (lines 68-69). -/
def end_5diff (f : α → α) (x h : α) : α :=
  (-25 * f x + 48 * f (x + h) - 36 * f (x + 2 * h) +
    16 * f (x + 3 * h) - 3 * f (x + 4 * h)) / (12 * h)

/-- `mid_5diff` (lines 82-83). -/
def mid_5diff (f : α → α) (x h : α) : α :=
  (f (x - 2 * h) - 8 * f (x - h) + 8 * f (x + h) - f (x + 2 * h)) / (12 * h)

/-- `second_diff` (line 96). -/
def second_diff (f : α → α) (x h : α) : α :=
  (f (x - h) - 2 * f x + f (x + h)) / h ^ 2

/-- `trapezoid_rule` (line 109): `((b-a)/2) * (f(a) + f(b))`. -/
def trapezoid_rule (f : α → α) (a b : α) : α :=
  ((b - a) / 2) * (f a + f b)

/-- `trap_comp` (lines 124-128): `h = (b-a)/n`; `mid_terms` accumulates
`f(a + i*h)` for `i` in `range(n)`, i.e. `i = 0, ..., n-1`; the result is
`(h/2) * (f(a) + 2*mid_terms + f(b))`. -/
def trap_comp (f : α → α) (a b : α) (n : ℕ) : α :=
  let h := (b - a) / (n : α)
  let mid_terms := ∑ i ∈ Finset.range n, f (a + (i : α) * h)
  (h / 2) * (f a + 2 * mid_terms + f b)

/-- Modelled from the spec for comparison with `trap_comp`: the sum of
`trapezoid_rule` over the `n` equal panels of `[a, b]`
("composite sums n panels"). -/
def trapPanels (f : α → α) (a b : α) (n : ℕ) : α :=
  ∑ i ∈ Finset.range n,
    trapezoid_rule f (a + (i : α) * ((b - a) / (n : α)))
      (a + ((i : α) + 1) * ((b - a) / (n : α)))

/-- `simpsons_rule` (lines 141-142). -/
def simpsons_rule (f : α → α) (a b : α) : α :=
  let h := (b - a) / 2
  (h / 3) * (f a + 4 * f ((b + a) / 2) + f b)

/-- `simp_comp` (lines 157-168): composite Simpson with interior points split
by parity of the index. -/
def simp_comp (f : α → α) (a b : α) (n : ℕ) : α :=
  let h := (b - a) / (n : α)
  let x_0 := f a + f b
  let x_even := ∑ i ∈ (Finset.Ico 1 n).filter (fun i => i % 2 = 0), f (a + (i : α) * h)
  let x_odd := ∑ i ∈ (Finset.Ico 1 n).filter (fun i => i % 2 ≠ 0), f (a + (i : α) * h)
  h * (x_0 + 2 * x_even + 4 * x_odd) / 3

/-! ### Adaptive Simpson (`simp_adpt`, lines 170-236)

The source keeps eight parallel numpy arrays `e, a0, h, fa, fc, fb, s, l`
of length `n_0`, indexed by one stack pointer `i`: together they form a
stack of subdivision frames, `i` pointing at the top.  We model the frame
contents as a structure (fields in the order of line 185) and the eight
arrays plus pointer as a `List (Frame α)` whose head is the top frame, i.e.
the slot at index `i`; the list has length `i + 1`.

The `while i > -1` loop is translated with an explicit fuel parameter so
that the definition stays structurally recursive and executable; `simp_adpt`
runs the loop with fuel `2 ^ (n_0 + 1)`, which is proved sufficient
(`simpLoopF_stable`, claim C7): with at least that much fuel the fuel
parameter no longer influences the result, so the fuelled function computes
the limit of the source's unbounded loop. -/

/-- One stack frame of `simp_adpt`: the slot at index `i` of the eight
arrays created at line 185 (`e, a0, h, fa, fc, fb, s, l = np.zeros((8, n_0))`).
The depth value `l` holds the integers 1, 2, ... and is modelled as `ℕ`. -/
structure Frame (α : Type) where
  e : α
  a0 : α
  h : α
  fa : α
  fc : α
  fb : α
  s : α
  l : ℕ
  deriving DecidableEq

/-- The initial frame written at lines 186-193: tolerance slot `e = 10*tol`,
whole interval `[a, b]` with half-width `h = (b-a)/2`, samples at `a`,
`a + h`, `b`, Simpson estimate `s = h*(fa + 4*fc + fb)/3`, depth `l = 1`. -/
def simpInit (f : α → α) (a b tol : α) : Frame α :=
  let h0 := (b - a) / 2
  { e := 10 * tol
    a0 := a
    h := h0
    fa := f a
    fc := f (a + h0)
    fb := f b
    s := h0 * (f a + 4 * f (a + h0) + f b) / 3
    l := 1 }

/-- The `while i > -1` loop of lines 194-236, with fuel.  Arguments after the
fuel: the stack (head = the frame at index `i`), the accumulator `approx`,
the number of target-function evaluations so far, and the number of loop
iterations so far.  Each iteration evaluates `fd` and `fe` (lines 195-196,
2 evaluations), computes the refined half-estimates `s1`, `s2`
(lines 197-198), pops the frame (line 207), and then
either accepts (`|s1+s2-s| < e`, lines 209-210), returns early on exhausted
depth (`l >= n_0`, lines 211-213), or pushes the right-half frame
(lines 215-224) and then the left-half frame (lines 226-235) so the left
half is the new top.  Fuel 0 (never reached from `simp_adptFull`) returns
the state unchanged. -/
def simpLoopF (f : α → α) (n_0 : ℕ) : ℕ → List (Frame α) → α → ℕ → ℕ → α × ℕ × ℕ
  | 0, _, approx, ev, it => (approx, ev, it)
  | _ + 1, [], approx, ev, it => (approx, ev, it)
  | fuel + 1, fr :: rest, approx, ev, it =>
    let p1 := fcall f (fr.a0 + fr.h / 2) ev
    let fd := p1.1
    let p2 := fcall f (fr.a0 + 3 * fr.h / 2) p1.2
    let fe := p2.1
    let s1 := fr.h * (fr.fa + 4 * fd + fr.fc) / 6
    let s2 := fr.h * (fr.fc + 4 * fe + fr.fb) / 6
    if |s1 + s2 - fr.s| < fr.e then
      simpLoopF f n_0 fuel rest (approx + (s1 + s2)) p2.2 (it + 1)
    else if n_0 ≤ fr.l then
      (approx, p2.2, it + 1)
    else
      simpLoopF f n_0 fuel
        ({ e := fr.e / 2, a0 := fr.a0, h := fr.h / 2, fa := fr.fa, fc := fd,
           fb := fr.fc, s := s1, l := fr.l + 1 } ::
          { e := fr.e / 2, a0 := fr.a0 + fr.h, h := fr.h / 2, fa := fr.fc,
            fc := fe, fb := fr.fb, s := s2, l := fr.l + 1 } :: rest)
        approx p2.2 (it + 1)

/-- Fuel with which `simp_adptFull` runs the loop; proved sufficient in the
termination theorem for claim C7. -/
def simpFuel (n_0 : ℕ) : ℕ :=
  2 ^ (n_0 + 1)

/-- `simp_adpt` (lines 170-236) instrumented: returns
(`approx`, target-function evaluations, loop iterations).  Initialization
(lines 183-193) performs the 3 evaluations `f a`, `f (a + h)`, `f b`. -/
def simp_adptFull (f : α → α) (a b tol : α) (n_0 : ℕ) : α × ℕ × ℕ :=
  simpLoopF f n_0 (simpFuel n_0) [simpInit f a b tol] 0 3 0

/-- `simp_adpt`: the returned approximation (line 236 / line 213). -/
def simp_adpt (f : α → α) (a b tol : α) (n_0 : ℕ) : α :=
  (simp_adptFull f a b tol n_0).1

/-- The measure used to bound the loop: a frame at depth `l` can cause at
most `2 * 2 ^ (n_0 + 1 - l) - 1` further iterations. -/
def frameMeasure (n_0 : ℕ) (fr : Frame α) : ℕ :=
  2 * 2 ^ (n_0 + 1 - fr.l) - 1

/-- Total measure of a stack: sum of the frame measures. -/
def stackMeasure (n_0 : ℕ) (L : List (Frame α)) : ℕ :=
  (L.map (frameMeasure n_0)).sum

/-- The trace of stack states of the `simp_adpt` loop: the stack as it
stands at every entry of the `while i > -1` test (the same iteration step
as `simpLoopF`; the accumulators are irrelevant to the stack evolution and
are omitted).  Element `j` of a stack of length `k` (head = index `k-1`)
models slot `k-1-j` of the eight arrays; all array reads of an iteration
address the top slot `i = k-1` of the entry stack, and the writes of
lines 217-235 address slots `k-2` and `k-1` of the following entry stack. -/
def simpLoopTrace (f : α → α) (n_0 : ℕ) : ℕ → List (Frame α) → List (List (Frame α))
  | 0, stack => [stack]
  | fuel + 1, stack =>
    stack ::
      match stack with
      | [] => []
      | fr :: rest =>
        let fd := f (fr.a0 + fr.h / 2)
        let fe := f (fr.a0 + 3 * fr.h / 2)
        let s1 := fr.h * (fr.fa + 4 * fd + fr.fc) / 6
        let s2 := fr.h * (fr.fc + 4 * fe + fr.fb) / 6
        if |s1 + s2 - fr.s| < fr.e then
          simpLoopTrace f n_0 fuel rest
        else if n_0 ≤ fr.l then
          []
        else
          simpLoopTrace f n_0 fuel
            ({ e := fr.e / 2, a0 := fr.a0, h := fr.h / 2, fa := fr.fa, fc := fd,
               fb := fr.fc, s := s1, l := fr.l + 1 } ::
              { e := fr.e / 2, a0 := fr.a0 + fr.h, h := fr.h / 2, fa := fr.fc,
                fc := fe, fb := fr.fb, s := s2, l := fr.l + 1 } :: rest)

/-! ### Gaussian quadrature (`gquad`, `gquad_adpt`, lines 238-282) -/

/-- `gquad` (lines 251-252).  `sqrt3` stands for `np.sqrt(3)`. -/
def gquad (f : α → α) (sqrt3 a b : α) : α :=
  (f ((1 / 2) * ((b - a) * (-sqrt3 / 3) + a + b)) +
    f ((1 / 2) * ((b - a) * (sqrt3 / 3) + a + b))) * (b - a) / 2

/-- `gquad` instrumented with the evaluation counter: the body contains
exactly the two call sites of lines 251-252. -/
def gquadC (f : α → α) (sqrt3 a b : α) : α × ℕ :=
  let p1 := fcall f ((1 / 2) * ((b - a) * (-sqrt3 / 3) + a + b)) 0
  let p2 := fcall f ((1 / 2) * ((b - a) * (sqrt3 / 3) + a + b)) p1.2
  ((p1.1 + p2.1) * (b - a) / 2, p2.2)

/-- The default value of the `tol` parameter of `gquad_adpt`
(line 254: `tol=10**(-7)`), which is also the tolerance its recursive calls
(lines 280-281) use, since they do not pass `tol`. -/
def gquadTolDefault : α :=
  1 / 10000000

/-- The body of `gquad_adpt` (lines 270-282) with fuel.  Arguments after the
fuel follow the source signature: `a`, `b`, `level`, `current_sum`, `tol`
(`n_0` is fixed outside the fuel recursion).  The recursive calls at
lines 280-281 pass `level`, `current_sum` and `n_0` but NOT `tol`, so the
recursive calls run with the default `tol = 10**(-7)`.  Fuel 0 (never
reached from `gquad_adpt`) returns `current_sum` unchanged. -/
def gquadAdptF (f : α → α) (sqrt3 : α) (n_0 : ℤ) :
    ℕ → α → α → ℤ → α → α → α
  | 0, _, _, _, current_sum, _ => current_sum
  | fuel + 1, a, b, level, current_sum, tol =>
    let level1 := level + 1
    let one_gauss := gquad f sqrt3 a b
    let c := (a + b) / 2
    let two_gauss := gquad f sqrt3 a c + gquad f sqrt3 c b
    if n_0 < level1 then
      current_sum
    else if |one_gauss - two_gauss| < tol then
      current_sum + two_gauss
    else
      let cs1 := gquadAdptF f sqrt3 n_0 fuel a c level1 current_sum gquadTolDefault
      gquadAdptF f sqrt3 n_0 fuel c b level1 cs1 gquadTolDefault

/-- `gquad_adpt` (lines 254-282), run with fuel `(n_0 + 1 - level).toNat + 1`,
which is proved sufficient (claim C7): the recursion stops as soon as
`level + 1 > n_0`, and `level` grows by 1 per call. -/
def gquad_adpt (f : α → α) (sqrt3 a b : α) (level : ℤ) (current_sum : α)
    (n_0 : ℤ) (tol : α) : α :=
  gquadAdptF f sqrt3 n_0 ((n_0 + 1 - level).toNat + 1) a b level current_sum tol

/-- The refined left-half Simpson estimate `s1` (line 197) computed by the
first loop iteration of `simp_adpt`, expressed from the call arguments: the
first popped frame is the initial one, with `a0 = a`, `h = (b-a)/2`, samples
`f a`, `f (a + h)`, `f b`, and quarter-point sample `fd = f (a + h/2)`. -/
def simpFirstS1 (f : α → α) (a b : α) : α :=
  let h0 := (b - a) / 2
  h0 * (f a + 4 * f (a + h0 / 2) + f (a + h0)) / 6

/-- The refined right-half Simpson estimate `s2` (line 198) computed by the
first loop iteration of `simp_adpt`, with `fe = f (a + 3*h/2)`. -/
def simpFirstS2 (f : α → α) (a b : α) : α :=
  let h0 := (b - a) / 2
  h0 * (f (a + h0) + 4 * f (a + 3 * h0 / 2) + f b) / 6

/-- The invariant of the `simp_adpt` stack, on the list of depth values
`l` from top to bottom: every depth is between 1 and `n_0`; below the top
the depths strictly decrease towards the bottom; the top depth is at least
the one below it; and when at least two frames are present the bottom depth
is at least 2.  It forces the stack length to stay at most `n_0`. -/
def depthsOK (n_0 : ℕ) (D : List ℕ) : Prop :=
  (∀ d ∈ D, 1 ≤ d ∧ d ≤ n_0) ∧
  List.Chain' (fun x y => y < x) D.tail ∧
  (match D with
   | x :: y :: _ => y ≤ x
   | _ => True) ∧
  (2 ≤ D.length → ∀ z, D.getLast? = some z → 2 ≤ z)

/-! ### The `NumMethods` instance (lines 4-16)

`NumMethods.__init__` stores the target function in the attribute
`self.func`; no method body of the class contains any attribute assignment,
so a method call leaves the instance as it was.  Each operation is modelled
at the instance level as a function from the instance (and the arguments) to
the pair (returned value, instance after the call); since the method bodies
only read `self.func`, the instance after the call is the received one. -/

/-- The state of a `NumMethods` instance: its only attribute `func`
(line 16).  `sqrt3` carries the value `np.sqrt(3)` used by `gquad`. -/
structure NumMethods (α : Type) where
  func : α → α
  sqrt3 : α

/-- `for_diff` as an instance-level operation. -/
def for_diffS (nm : NumMethods α) (x h : α) : α × NumMethods α :=
  (for_diff nm.func x h, nm)

/-- `end_3diff` as an instance-level operation. -/
def end_3diffS (nm : NumMethods α) (x h : α) : α × NumMethods α :=
  (end_3diff nm.func x h, nm)

/-- `mid_3diff` as an instance-level operation. -/
def mid_3diffS (nm : NumMethods α) (x h : α) : α × NumMethods α :=
  (mid_3diff nm.func x h, nm)

/-- `end_5diff` as an instance-level operation. -/
def end_5diffS (nm : NumMethods α) (x h : α) : α × NumMethods α :=
  (end_5diff nm.func x h, nm)

/-- `mid_5diff` as an instance-level operation. -/
def mid_5diffS (nm : NumMethods α) (x h : α) : α × NumMethods α :=
  (mid_5diff nm.func x h, nm)

/-- `second_diff` as an instance-level operation. -/
def second_diffS (nm : NumMethods α) (x h : α) : α × NumMethods α :=
  (second_diff nm.func x h, nm)

/-- `trapezoid_rule` as an instance-level operation. -/
def trapezoid_ruleS (nm : NumMethods α) (a b : α) : α × NumMethods α :=
  (trapezoid_rule nm.func a b, nm)

/-- `trap_comp` as an instance-level operation. -/
def trap_compS (nm : NumMethods α) (a b : α) (n : ℕ) : α × NumMethods α :=
  (trap_comp nm.func a b n, nm)

/-- `simpsons_rule` as an instance-level operation. -/
def simpsons_ruleS (nm : NumMethods α) (a b : α) : α × NumMethods α :=
  (simpsons_rule nm.func a b, nm)

/-- `simp_comp` as an instance-level operation. -/
def simp_compS (nm : NumMethods α) (a b : α) (n : ℕ) : α × NumMethods α :=
  (simp_comp nm.func a b n, nm)

/-- `simp_adpt` as an instance-level operation. -/
def simp_adptS (nm : NumMethods α) (a b tol : α) (n_0 : ℕ) : α × NumMethods α :=
  (simp_adpt nm.func a b tol n_0, nm)

/-- `gquad` as an instance-level operation. -/
def gquadS (nm : NumMethods α) (a b : α) : α × NumMethods α :=
  (gquad nm.func nm.sqrt3 a b, nm)

/-- `gquad_adpt` as an instance-level operation. -/
def gquad_adptS (nm : NumMethods α) (a b : α) (level : ℤ) (current_sum : α)
    (n_0 : ℤ) (tol : α) : α × NumMethods α :=
  (gquad_adpt nm.func nm.sqrt3 a b level current_sum n_0 tol, nm)

/-! ## Theorems -/

/-- The loop of `simp_adpt` leaves the state unchanged on an empty stack,
whatever the fuel. -/
theorem simpLoopF_nil (f : α → α) (n_0 : ℕ) (fuel : ℕ) (approx : α) (ev it : ℕ) :
    simpLoopF f n_0 fuel [] approx ev it = (approx, ev, it) := by
  cases fuel <;> rfl

/-- C2: `trap_comp`'s interior sum starts at `i = 0`, so `f a` is counted
three times instead of once: on the constant function 1 over `[0, 1]` with
`n = 2` panels, `trap_comp` returns `3/2` while the sum of the two panel
trapezoids (the documented composite trapezoid value) is `1`. -/
theorem trap_comp_counts_fa_three_times :
    trap_comp (fun _ : ℚ => 1) 0 1 2 = 3 / 2 ∧
    trapPanels (fun _ : ℚ => 1) 0 1 2 = 1 ∧
    trap_comp (fun _ : ℚ => 1) 0 1 2 ≠ trapPanels (fun _ : ℚ => 1) 0 1 2 := by
  refine ⟨?_, ?_, ?_⟩ <;>
    norm_num [trap_comp, trapPanels, trapezoid_rule, Finset.sum_range_succ]

/-- C9: `gquad` is the affine image on `[a, b]` of the 2-node
Gauss-Legendre rule: with `m = (a+b)/2` and `d = (b-a)*sqrt3/6` it equals
`((b-a)/2) * (f (m - d) + f (m + d))` — the two node values are summed —
and its instrumented form shows it performs exactly 2 evaluations of the
target function. -/
theorem gquad_is_gauss_legendre (f : α → α) (sqrt3 a b : α) :
    gquad f sqrt3 a b =
      ((b - a) / 2) *
        (f ((a + b) / 2 - (b - a) * sqrt3 / 6) + f ((a + b) / 2 + (b - a) * sqrt3 / 6)) ∧
    gquadC f sqrt3 a b = (gquad f sqrt3 a b, 2) := by
  have h1 : (1 / 2 : α) * ((b - a) * (-sqrt3 / 3) + a + b) =
      (a + b) / 2 - (b - a) * sqrt3 / 6 := by ring
  have h2 : (1 / 2 : α) * ((b - a) * (sqrt3 / 3) + a + b) =
      (a + b) / 2 + (b - a) * sqrt3 / 6 := by ring
  constructor
  · unfold gquad
    rw [h1, h2]
    ring
  · rfl

/-- C4: whenever the incremented depth counter of `gquad_adpt` exceeds
`n_0`, the call returns the accumulator `current_sum` unchanged: the
two-panel estimate of that branch is discarded, and whatever other branches
already accumulated into `current_sum` is kept. -/
theorem gquad_adpt_depth_exceeded_keeps_accumulator (f : α → α) (sqrt3 a b : α)
    (level : ℤ) (current_sum : α) (n_0 : ℤ) (tol : α)
    (hdepth : n_0 < level + 1) :
    gquad_adpt f sqrt3 a b level current_sum n_0 tol = current_sum := by
  unfold gquad_adpt
  simp only [gquadAdptF]
  rw [if_pos hdepth]

/-- Closed witness for the depth-exceeded behaviour of `gquad_adpt`:
called at `level = 20` with `n_0 = 20` and accumulator `5`, it returns `5`. -/
theorem gquad_adpt_depth_exceeded_keeps_accumulator_witness :
    (20 : ℤ) < 20 + 1 ∧
    gquad_adpt (fun x : ℚ => x ^ 2) 0 0 2 20 5 20 (1 / 10) = 5 :=
  ⟨by norm_num,
    gquad_adpt_depth_exceeded_keeps_accumulator (fun x : ℚ => x ^ 2) 0 0 2 20 5 20 (1 / 10)
      (by norm_num)⟩

/-- One accepting iteration of the `simp_adpt` loop: when the popped frame
passes the test `|s1 + s2 - s| < e`, the loop adds `s1 + s2` to the
accumulator (after the two quarter-point evaluations) and continues with the
rest of the stack. -/
theorem simpLoopF_cons_accept (f : α → α) (n_0 : ℕ) (fuel : ℕ) (fr : Frame α)
    (rest : List (Frame α)) (approx : α) (ev it : ℕ)
    (hacc : |fr.h * (fr.fa + 4 * f (fr.a0 + fr.h / 2) + fr.fc) / 6 +
        fr.h * (fr.fc + 4 * f (fr.a0 + 3 * fr.h / 2) + fr.fb) / 6 - fr.s| < fr.e) :
    simpLoopF f n_0 (fuel + 1) (fr :: rest) approx ev it =
      simpLoopF f n_0 fuel rest
        (approx + (fr.h * (fr.fa + 4 * f (fr.a0 + fr.h / 2) + fr.fc) / 6 +
          fr.h * (fr.fc + 4 * f (fr.a0 + 3 * fr.h / 2) + fr.fb) / 6))
        (ev + 1 + 1) (it + 1) := by
  simp only [simpLoopF, fcall]
  rw [if_pos hacc]

/-- C5: when a popped frame fails the acceptance test and its depth `l` has
reached `n_0`, the `simp_adpt` loop returns the accumulated total at once:
the result does not depend on the frames still on the stack (`rest`) nor on
the remaining fuel, i.e. the remaining stack work is truncated.  (The only
evaluations charged are the iteration's own two quarter-point samples.) -/
theorem simp_adpt_depth_truncates_stack (f : α → α) (n_0 : ℕ) (fuel : ℕ)
    (fr : Frame α) (rest : List (Frame α)) (approx : α) (ev it : ℕ)
    (hrej : ¬ |fr.h * (fr.fa + 4 * f (fr.a0 + fr.h / 2) + fr.fc) / 6 +
        fr.h * (fr.fc + 4 * f (fr.a0 + 3 * fr.h / 2) + fr.fb) / 6 - fr.s| < fr.e)
    (hl : n_0 ≤ fr.l) :
    simpLoopF f n_0 (fuel + 1) (fr :: rest) approx ev it = (approx, ev + 1 + 1, it + 1) := by
  simp only [simpLoopF, fcall]
  rw [if_neg hrej, if_pos hl]

/-- Closed witness for the truncation behaviour of `simp_adpt`: a frame of
depth 3 with `n_0 = 3` fails its test while another frame is still on the
stack; the accumulator 7 is returned untouched. -/
theorem simp_adpt_depth_truncates_stack_witness :
    (¬ |(1 : ℚ) * (0 + 4 * ((fun x : ℚ => x) (0 + 1 / 2)) + 0) / 6 +
        1 * (0 + 4 * ((fun x : ℚ => x) (0 + 3 * 1 / 2)) + 0) / 6 - 5| < 1 / 10) ∧
    3 ≤ 3 ∧
    simpLoopF (fun x : ℚ => x) 3 (5 + 1)
      [{ e := 1 / 10, a0 := 0, h := 1, fa := 0, fc := 0, fb := 0, s := 5, l := 3 },
        { e := 1 / 10, a0 := 0, h := 1, fa := 0, fc := 0, fb := 0, s := 5, l := 3 }]
      7 9 4 = (7, 9 + 1 + 1, 4 + 1) :=
  ⟨by norm_num [abs], le_refl 3,
    simp_adpt_depth_truncates_stack (fun x : ℚ => x) 3 5
      { e := 1 / 10, a0 := 0, h := 1, fa := 0, fc := 0, fb := 0, s := 5, l := 3 }
      [{ e := 1 / 10, a0 := 0, h := 1, fa := 0, fc := 0, fb := 0, s := 5, l := 3 }]
      7 9 4 (by norm_num [abs]) (le_refl 3)⟩

/-- C3: when the depth bound is not yet reached and the acceptance test of
`gquad_adpt` rejects, the call unfolds to the two recursive calls of
lines 280-281 — and both of them receive the tolerance `gquadTolDefault`
(`10^(-7)`, the default of the `tol` parameter), not the caller-supplied
`tol`: the caller's `tol` influences only the top-level test, and every
acceptance test below the top level uses the default tolerance. -/
theorem gquad_adpt_recursion_uses_default_tol (f : α → α) (sqrt3 a b : α)
    (level : ℤ) (current_sum : α) (n_0 : ℤ) (tol : α)
    (hdepth : ¬ n_0 < level + 1)
    (hrej : ¬ |gquad f sqrt3 a b -
        (gquad f sqrt3 a ((a + b) / 2) + gquad f sqrt3 ((a + b) / 2) b)| < tol) :
    gquad_adpt f sqrt3 a b level current_sum n_0 tol =
      gquad_adpt f sqrt3 ((a + b) / 2) b (level + 1)
        (gquad_adpt f sqrt3 a ((a + b) / 2) (level + 1) current_sum n_0 gquadTolDefault)
        n_0 gquadTolDefault := by
  have hfuel : (n_0 + 1 - level).toNat = (n_0 + 1 - (level + 1)).toNat + 1 := by omega
  unfold gquad_adpt
  rw [hfuel]
  simp only [gquadAdptF]
  rw [if_neg hdepth, if_neg hrej]

/-- Closed witness for the default-tolerance recursion of `gquad_adpt`:
`f = x^2` on `[0, 2]` (with `sqrt3` instantiated to 0) rejects at
`tol = 1/10`, and the call equals the two recursive calls at the default
tolerance. -/
theorem gquad_adpt_recursion_uses_default_tol_witness :
    (¬ (20 : ℤ) < 0 + 1) ∧
    (¬ |gquad (fun x : ℚ => x ^ 2) 0 0 2 -
        (gquad (fun x : ℚ => x ^ 2) 0 0 ((0 + 2) / 2) +
          gquad (fun x : ℚ => x ^ 2) 0 ((0 + 2) / 2) 2)| < 1 / 10) ∧
    gquad_adpt (fun x : ℚ => x ^ 2) 0 0 2 0 0 20 (1 / 10) =
      gquad_adpt (fun x : ℚ => x ^ 2) 0 ((0 + 2) / 2) 2 (0 + 1)
        (gquad_adpt (fun x : ℚ => x ^ 2) 0 0 ((0 + 2) / 2) (0 + 1) 0 20 gquadTolDefault)
        20 gquadTolDefault :=
  ⟨by norm_num, by norm_num [gquad, abs],
    gquad_adpt_recursion_uses_default_tol (fun x : ℚ => x ^ 2) 0 0 2 0 0 20 (1 / 10)
      (by norm_num) (by norm_num [gquad, abs])⟩

/-- C1 counterexample: the initial frame's tolerance slot is `10 * tol`,
not `tol`.  Concretely, with `f = x^4` on `[0, 1]` and `tol = 1/200`, the
slot holds `1/20 ≠ 1/200`; moreover the very first acceptance test passes
against `10 * tol` even though `|s1 + s2 - s| = 1/128` is NOT below `tol`:
the call returns `s1 + s2 = 77/384` at once, which the claimed threshold
`tol` would have rejected. -/
theorem simp_adpt_initial_tolerance_not_tol :
    (simpInit (fun x : ℚ => x ^ 4) 0 1 (1 / 200)).e ≠ 1 / 200 ∧
    simp_adpt (fun x : ℚ => x ^ 4) 0 1 (1 / 200) 2 = 77 / 384 ∧
    ¬ |(77 : ℚ) / 384 - (simpInit (fun x : ℚ => x ^ 4) 0 1 (1 / 200)).s| < 1 / 200 := by
  refine ⟨by norm_num [simpInit], ?_, by norm_num [simpInit, abs]⟩
  have h8 : simpFuel 2 = 7 + 1 := rfl
  unfold simp_adpt simp_adptFull
  rw [h8, simpLoopF_cons_accept _ _ _ _ _ _ _ _ (by norm_num [simpInit, abs]),
    simpLoopF_nil]
  norm_num [simpInit]

/-- C1 amended: the initial frame of `simp_adpt` carries the tolerance slot
`e = 10 * tol`, so the very first acceptance test compares `|s1 + s2 - s|`
against `10 * tol`: whenever that comparison holds, the whole call accepts
at its first iteration and returns `s1 + s2` (with 5 evaluations of the
target function and one loop iteration). -/
theorem simp_adpt_first_test_against_ten_tol (f : α → α) (a b tol : α) (n_0 : ℕ)
    (hacc : |simpFirstS1 f a b + simpFirstS2 f a b - (simpInit f a b tol).s| < 10 * tol) :
    (simpInit f a b tol).e = 10 * tol ∧
    simp_adptFull f a b tol n_0 = (simpFirstS1 f a b + simpFirstS2 f a b, 5, 1) := by
  refine ⟨rfl, ?_⟩
  have h1 : simpFuel n_0 = (simpFuel n_0 - 1) + 1 := by
    have : 1 ≤ simpFuel n_0 := Nat.one_le_two_pow
    omega
  unfold simp_adptFull
  rw [h1, simpLoopF_cons_accept _ _ _ _ _ _ _ _ ?hacc, simpLoopF_nil]
  case hacc =>
    simpa [simpInit, simpFirstS1, simpFirstS2] using hacc
  simp [simpInit, simpFirstS1, simpFirstS2]

/-- Closed witness for the first-test behaviour of `simp_adpt`: `f = x^4`
on `[0, 1]` with `tol = 1/200` passes the first test against `10 * tol`
(the discrepancy is `1/128 < 1/20`), and the call returns `s1 + s2`
immediately. -/
theorem simp_adpt_first_test_against_ten_tol_witness :
    |simpFirstS1 (fun x : ℚ => x ^ 4) 0 1 + simpFirstS2 (fun x : ℚ => x ^ 4) 0 1 -
        (simpInit (fun x : ℚ => x ^ 4) 0 1 (1 / 200)).s| < 10 * (1 / 200) ∧
    ((simpInit (fun x : ℚ => x ^ 4) 0 1 (1 / 200)).e = 10 * (1 / 200) ∧
      simp_adptFull (fun x : ℚ => x ^ 4) 0 1 (1 / 200) 2 =
        (simpFirstS1 (fun x : ℚ => x ^ 4) 0 1 + simpFirstS2 (fun x : ℚ => x ^ 4) 0 1, 5, 1)) :=
  ⟨by norm_num [simpFirstS1, simpFirstS2, simpInit, abs],
    simp_adpt_first_test_against_ten_tol (fun x : ℚ => x ^ 4) 0 1 (1 / 200) 2
      (by norm_num [simpFirstS1, simpFirstS2, simpInit, abs])⟩

/-- C10: for every operation of `NumMethods`, running the operation a second
time from the instance returned by a first call with the same arguments
yields exactly the result of the first call, together with the original
instance: results are reproducible and nothing in the instance is mutated
(the bodies only read `self.func`; no attribute is written). -/
theorem numMethods_idempotent_no_mutation (nm : NumMethods α) (x h a b tol : α)
    (n n_0 : ℕ) (level : ℤ) (current_sum : α) (gn_0 : ℤ) (gtol : α) :
    for_diffS (for_diffS nm x h).2 x h = ((for_diffS nm x h).1, nm) ∧
    end_3diffS (end_3diffS nm x h).2 x h = ((end_3diffS nm x h).1, nm) ∧
    mid_3diffS (mid_3diffS nm x h).2 x h = ((mid_3diffS nm x h).1, nm) ∧
    end_5diffS (end_5diffS nm x h).2 x h = ((end_5diffS nm x h).1, nm) ∧
    mid_5diffS (mid_5diffS nm x h).2 x h = ((mid_5diffS nm x h).1, nm) ∧
    second_diffS (second_diffS nm x h).2 x h = ((second_diffS nm x h).1, nm) ∧
    trapezoid_ruleS (trapezoid_ruleS nm a b).2 a b = ((trapezoid_ruleS nm a b).1, nm) ∧
    trap_compS (trap_compS nm a b n).2 a b n = ((trap_compS nm a b n).1, nm) ∧
    simpsons_ruleS (simpsons_ruleS nm a b).2 a b = ((simpsons_ruleS nm a b).1, nm) ∧
    simp_compS (simp_compS nm a b n).2 a b n = ((simp_compS nm a b n).1, nm) ∧
    simp_adptS (simp_adptS nm a b tol n_0).2 a b tol n_0 =
      ((simp_adptS nm a b tol n_0).1, nm) ∧
    gquadS (gquadS nm a b).2 a b = ((gquadS nm a b).1, nm) ∧
    gquad_adptS (gquad_adptS nm a b level current_sum gn_0 gtol).2 a b level current_sum
        gn_0 gtol = ((gquad_adptS nm a b level current_sum gn_0 gtol).1, nm) :=
  ⟨rfl, rfl, rfl, rfl, rfl, rfl, rfl, rfl, rfl, rfl, rfl, rfl, rfl⟩

/-- Counting invariant of the `simp_adpt` loop: starting from any state, the
loop adds exactly two target-function evaluations per iteration it performs,
whatever the stack contents and fuel. -/
theorem simpLoopF_evals (f : α → α) (n_0 : ℕ) :
    ∀ (fuel : ℕ) (stack : List (Frame α)) (approx : α) (ev it : ℕ),
      (simpLoopF f n_0 fuel stack approx ev it).2.1 + 2 * it =
        ev + 2 * (simpLoopF f n_0 fuel stack approx ev it).2.2 := by
  intro fuel
  induction fuel with
  | zero =>
    intro stack approx ev it
    rfl
  | succ k ih =>
    intro stack approx ev it
    cases stack with
    | nil => rfl
    | cons fr rest =>
      simp only [simpLoopF, fcall]
      split
      · have h := ih rest
          (approx + (fr.h * (fr.fa + 4 * f (fr.a0 + fr.h / 2) + fr.fc) / 6 +
            fr.h * (fr.fc + 4 * f (fr.a0 + 3 * fr.h / 2) + fr.fb) / 6))
          (ev + 1 + 1) (it + 1)
        omega
      · split
        · simp only
          omega
        · have h := ih
            ({ e := fr.e / 2, a0 := fr.a0, h := fr.h / 2, fa := fr.fa,
               fc := f (fr.a0 + fr.h / 2), fb := fr.fc,
               s := fr.h * (fr.fa + 4 * f (fr.a0 + fr.h / 2) + fr.fc) / 6,
               l := fr.l + 1 } ::
              { e := fr.e / 2, a0 := fr.a0 + fr.h, h := fr.h / 2, fa := fr.fc,
                fc := f (fr.a0 + 3 * fr.h / 2), fb := fr.fb,
                s := fr.h * (fr.fc + 4 * f (fr.a0 + 3 * fr.h / 2) + fr.fb) / 6,
                l := fr.l + 1 } :: rest)
            approx (ev + 1 + 1) (it + 1)
          omega

/-- C6: for every call of `simp_adpt`, the total number of evaluations of
the target function equals `3 + 2 * (number of loop iterations performed)`:
3 during initialization (lines 189-191) and the two quarter-point samples
`fd`, `fe` per popped frame, all other samples being reused from the parent
frame. -/
theorem simp_adpt_eval_count (f : α → α) (a b tol : α) (n_0 : ℕ) :
    (simp_adptFull f a b tol n_0).2.1 = 3 + 2 * (simp_adptFull f a b tol n_0).2.2 := by
  have h := simpLoopF_evals f n_0 (simpFuel n_0) [simpInit f a b tol] 0 3 0
  unfold simp_adptFull
  omega

/-- Every frame has positive measure. -/
theorem frameMeasure_pos (n_0 : ℕ) (fr : Frame α) : 1 ≤ frameMeasure n_0 fr := by
  unfold frameMeasure
  have h := Nat.one_le_two_pow (n := n_0 + 1 - fr.l)
  omega

/-- The measure of a stack decomposes over its head. -/
theorem stackMeasure_cons (n_0 : ℕ) (fr : Frame α) (rest : List (Frame α)) :
    stackMeasure n_0 (fr :: rest) = frameMeasure n_0 fr + stackMeasure n_0 rest := by
  simp [stackMeasure]

/-- Splitting a frame of depth `l < n_0` into its two children of depth
`l + 1` strictly decreases the measure: twice the child measure plus one
is the parent measure. -/
theorem frameMeasure_split (n_0 l : ℕ) (h : l < n_0) :
    2 * (2 * 2 ^ (n_0 + 1 - (l + 1)) - 1) + 1 = 2 * 2 ^ (n_0 + 1 - l) - 1 := by
  have h1 : n_0 + 1 - l = (n_0 + 1 - (l + 1)) + 1 := by omega
  rw [h1, pow_succ]
  have h2 := Nat.one_le_two_pow (n := n_0 + 1 - (l + 1))
  omega

/-- Fuel indifference of the `simp_adpt` loop: any two fuels at least the
stack measure produce the same outcome, i.e. the loop finishes within
`stackMeasure` iterations. -/
theorem simpLoopF_stable (f : α → α) (n_0 : ℕ) :
    ∀ (F1 F2 : ℕ) (stack : List (Frame α)) (approx : α) (ev it : ℕ),
      stackMeasure n_0 stack ≤ F1 → stackMeasure n_0 stack ≤ F2 →
      simpLoopF f n_0 F1 stack approx ev it = simpLoopF f n_0 F2 stack approx ev it := by
  intro F1
  induction F1 with
  | zero =>
    intro F2 stack approx ev it h1 h2
    cases stack with
    | nil => rw [simpLoopF_nil, simpLoopF_nil]
    | cons fr rest =>
      exfalso
      have hp := frameMeasure_pos n_0 fr
      have hc := stackMeasure_cons n_0 fr rest
      omega
  | succ k ih =>
    intro F2 stack approx ev it h1 h2
    cases stack with
    | nil => rw [simpLoopF_nil, simpLoopF_nil]
    | cons fr rest =>
      have hp := frameMeasure_pos n_0 fr
      have hc := stackMeasure_cons n_0 fr rest
      cases F2 with
      | zero => omega
      | succ j =>
        simp only [simpLoopF, fcall]
        split
        · exact ih j rest _ _ _ (by omega) (by omega)
        · split
          · rfl
          · rename_i hdep
            have hl : fr.l < n_0 := by omega
            have hkey := frameMeasure_split n_0 fr.l hl
            have hfr : frameMeasure n_0 fr = 2 * 2 ^ (n_0 + 1 - fr.l) - 1 := rfl
            apply ih j
            · rw [stackMeasure_cons, stackMeasure_cons]
              simp only [frameMeasure]
              omega
            · rw [stackMeasure_cons, stackMeasure_cons]
              simp only [frameMeasure]
              omega

/-- Fuel indifference of the `gquad_adpt` recursion: any two fuels above
`(n_0 + 1 - level).toNat` produce the same outcome, i.e. the recursion
bottoms out within that many levels (the depth counter grows by one per
call and the recursion stops once it exceeds `n_0`). -/
theorem gquadAdptF_stable (f : α → α) (sqrt3 : α) (n_0 : ℤ) :
    ∀ (F1 F2 : ℕ) (a b : α) (level : ℤ) (current_sum tol : α),
      (n_0 + 1 - level).toNat + 1 ≤ F1 → (n_0 + 1 - level).toNat + 1 ≤ F2 →
      gquadAdptF f sqrt3 n_0 F1 a b level current_sum tol =
        gquadAdptF f sqrt3 n_0 F2 a b level current_sum tol := by
  intro F1
  induction F1 with
  | zero =>
    intro F2 a b level current_sum tol h1 h2
    omega
  | succ k ih =>
    intro F2 a b level current_sum tol h1 h2
    cases F2 with
    | zero => omega
    | succ j =>
      simp only [gquadAdptF]
      split
      · rfl
      · split
        · rfl
        · rename_i hdep hrej
          have hk : (n_0 + 1 - (level + 1)).toNat + 1 ≤ k := by omega
          have hj : (n_0 + 1 - (level + 1)).toNat + 1 ≤ j := by omega
          rw [ih j a ((a + b) / 2) (level + 1) current_sum gquadTolDefault hk hj]
          exact ih j ((a + b) / 2) b (level + 1) _ gquadTolDefault hk hj

/-- C7: both adaptive integrators terminate, their work bounded by the depth
bound alone.  For `simp_adpt`: running the loop with any fuel beyond
`simpFuel n_0 = 2^(n_0+1)` changes nothing — the loop completes within
`2^(n_0+1) - 1` iterations, because each pushed frame carries depth one more
than its parent and frames of depth `n_0` are never subdivided.  For
`gquad_adpt`: any fuel beyond `(n_0 + 1 - level).toNat + 1` changes
nothing — the recursion depth is bounded since `level` increases by exactly
one per recursive call and the recursion stops once `level` exceeds `n_0`. -/
theorem adaptive_integrators_terminate (f : α → α) (a b tol : α) (n_0 : ℕ)
    (sqrt3 ga gb gcs gtol : α) (glevel gn_0 : ℤ) :
    (∀ extra : ℕ,
      simpLoopF f n_0 (simpFuel n_0 + extra) [simpInit f a b tol] 0 3 0 =
        simp_adptFull f a b tol n_0) ∧
    (∀ extra : ℕ,
      gquadAdptF f sqrt3 gn_0 ((gn_0 + 1 - glevel).toNat + 1 + extra) ga gb glevel gcs gtol =
        gquad_adpt f sqrt3 ga gb glevel gcs gn_0 gtol) := by
  constructor
  · intro extra
    unfold simp_adptFull
    apply simpLoopF_stable <;>
    · have h1 : stackMeasure n_0 [simpInit f a b tol] = 2 * 2 ^ n_0 - 1 := by
        simp [stackMeasure, frameMeasure, simpInit]
      have h2 : simpFuel n_0 = 2 * 2 ^ n_0 := by
        simp [simpFuel, pow_succ, Nat.mul_comm]
      have h3 := Nat.one_le_two_pow (n := n_0)
      omega
  · intro extra
    unfold gquad_adpt
    apply gquadAdptF_stable <;> omega

/-- Popping the top frame preserves the stack invariant. -/
theorem depthsOK_pop (n_0 d : ℕ) (D : List ℕ) (h : depthsOK n_0 (d :: D)) :
    depthsOK n_0 D := by
  obtain ⟨hb, hc, hh, hl⟩ := h
  cases D with
  | nil => exact ⟨by simp, by simp, trivial, by simp⟩
  | cons y rest =>
    refine ⟨?_, ?_, ?_, ?_⟩
    · intro x hx
      exact hb x (List.mem_cons_of_mem d hx)
    · exact hc.tail
    · cases rest with
      | nil => trivial
      | cons z rest2 =>
        have := List.chain'_cons.1 hc
        exact le_of_lt this.1
    · intro hlen z hz
      apply hl
      · simp only [List.length_cons] at hlen ⊢
        omega
      · rw [List.getLast?_cons_cons]
        exact hz

/-- Subdividing the top frame of depth `d < n_0` into two frames of depth
`d + 1` preserves the stack invariant. -/
theorem depthsOK_push (n_0 d : ℕ) (D : List ℕ) (h : depthsOK n_0 (d :: D))
    (hd : d < n_0) : depthsOK n_0 ((d + 1) :: (d + 1) :: D) := by
  obtain ⟨hb, hc, hh, hl⟩ := h
  have hd1 : 1 ≤ d := (hb d (List.mem_cons_self d D)).1
  refine ⟨?_, ?_, ?_, ?_⟩
  · intro x hx
    rcases List.mem_cons.1 hx with hx1 | hx
    · omega
    rcases List.mem_cons.1 hx with hx1 | hx
    · omega
    · exact hb x (List.mem_cons_of_mem d hx)
  · cases D with
    | nil => simp
    | cons y rest =>
      rw [List.tail_cons]
      refine List.chain'_cons.2 ⟨?_, hc⟩
      have hyd : y ≤ d := hh
      omega
  · exact le_refl (d + 1)
  · intro _ z hz
    cases D with
    | nil =>
      simp at hz
      omega
    | cons y rest =>
      apply hl
      · simp
      · rw [List.getLast?_cons_cons] at hz ⊢
        exact hz

/-- A stack satisfying the invariant holds at most `n_0` frames (for
`n_0 ≥ 1`): below the top frame the depths strictly decrease down to a
bottom depth of at least 2, and they are all at most `n_0`. -/
theorem depthsOK_length (n_0 : ℕ) (D : List ℕ) (h1 : 1 ≤ n_0)
    (h : depthsOK n_0 D) : D.length ≤ n_0 := by
  obtain ⟨hb, hc, hh, hl⟩ := h
  cases D with
  | nil => simp
  | cons x D2 =>
    cases D2 with
    | nil => simpa using h1
    | cons y rest =>
      have key : ∀ (xs : List ℕ) (v : ℕ), List.Chain' (fun p q => q < p) (v :: xs) →
          (∀ z, (v :: xs).getLast? = some z → 2 ≤ z) → (v :: xs).length + 1 ≤ v := by
        intro xs
        induction xs with
        | nil =>
          intro v _ hz
          have := hz v (by simp)
          simp
          omega
        | cons w ws ih =>
          intro v hcv hz
          have h2 := List.chain'_cons.1 hcv
          have h3 : ∀ z, (w :: ws).getLast? = some z → 2 ≤ z := by
            intro z hzz
            apply hz
            rw [List.getLast?_cons_cons]
            exact hzz
          have h4 := ih w h2.2 h3
          simp at h4 ⊢
          omega
      have h5 : (y :: rest).length + 1 ≤ y := by
        apply key rest y
        · simpa using hc
        · intro z hz
          apply hl
          · simp
          · rw [List.getLast?_cons_cons]
            exact hz
      have h6 : y ≤ n_0 := (hb y (by simp)).2
      simp at h5 ⊢
      omega

/-- The stack invariant holds of every stack state reached by the
`simp_adpt` loop from a stack satisfying it. -/
theorem simpLoopTrace_inv (f : α → α) (n_0 : ℕ) :
    ∀ (fuel : ℕ) (stack : List (Frame α)),
      depthsOK n_0 (stack.map Frame.l) →
      ∀ T ∈ simpLoopTrace f n_0 fuel stack, depthsOK n_0 (T.map Frame.l) := by
  intro fuel
  induction fuel with
  | zero =>
    intro stack hok T hT
    simp only [simpLoopTrace, List.mem_singleton] at hT
    rwa [hT]
  | succ k ih =>
    intro stack hok T hT
    cases stack with
    | nil =>
      simp only [simpLoopTrace, List.mem_singleton] at hT
      rwa [hT]
    | cons fr rest =>
      simp only [simpLoopTrace] at hT
      rcases List.mem_cons.1 hT with hT1 | hT2
      · rwa [hT1]
      · split at hT2
        · apply ih rest ?_ T hT2
          have h2 := hok
          rw [List.map_cons] at h2
          exact depthsOK_pop n_0 fr.l (rest.map Frame.l) h2
        · split at hT2
          · simp at hT2
          · rename_i hacc hdep
            apply ih _ ?_ T hT2
            rw [List.map_cons, List.map_cons]
            rw [List.map_cons] at hok
            exact depthsOK_push n_0 fr.l (rest.map Frame.l) hok (by omega)

/-- C8: throughout every run of `simp_adpt` (started, as in the source, from
the single whole-interval frame), every stack state reached by the loop
holds at most `n_0` frames, provided `n_0 ≥ 1`.  In array terms: the stack
pointer `i` equals (stack length) - 1, so it stays within `[-1, n_0 - 1]`;
the loop body reads the slots at index `i ≤ n_0 - 1` of the eight
preallocated length-`n_0` arrays, and the pushes of an iteration write the
top two slots of the next reached stack state, whose length is again at
most `n_0` — so the arrays are never indexed out of bounds. -/
theorem simp_adpt_stack_bounded (f : α → α) (a b tol : α) (n_0 fuel : ℕ)
    (h1 : 1 ≤ n_0) (S : List (Frame α))
    (hS : S ∈ simpLoopTrace f n_0 fuel [simpInit f a b tol]) :
    S.length ≤ n_0 := by
  have hok : depthsOK n_0 ([simpInit f a b tol].map Frame.l) := by
    refine ⟨?_, ?_, ?_, ?_⟩
    · intro d hd
      simp [simpInit] at hd
      omega
    · simp
    · simp [simpInit]
    · simp [simpInit]
  have hTok := simpLoopTrace_inv f n_0 fuel [simpInit f a b tol] hok S hS
  have hlen := depthsOK_length n_0 (S.map Frame.l) h1 hTok
  simpa using hlen

/-- Closed witness for the stack bound of `simp_adpt`: with `n_0 = 1`, the
initial one-frame stack is in the trace and its length is at most 1. -/
theorem simp_adpt_stack_bounded_witness :
    1 ≤ 1 ∧
    [simpInit (fun x : ℚ => x) 0 1 1] ∈
      simpLoopTrace (fun x : ℚ => x) 1 0 [simpInit (fun x : ℚ => x) 0 1 1] ∧
    ([simpInit (fun x : ℚ => x) 0 1 1] : List (Frame ℚ)).length ≤ 1 :=
  ⟨le_refl 1, by simp [simpLoopTrace],
    simp_adpt_stack_bounded (fun x : ℚ => x) 0 1 1 1 0 (le_refl 1)
      [simpInit (fun x : ℚ => x) 0 1 1] (by simp [simpLoopTrace])⟩

end NumAnalysis
